/-
Verification of the gravitational N-body physics core of the solar-system
simulation (src/NBodySimulation/main.cpp).

The C++ core works on IEEE doubles; following the specification's
"in exact arithmetic" reading, the embedding uses the real numbers.
Per-index loops of the source (`for (size_t i = 0; i < n; ++i)`) that touch
only index `i` are translated as `List.map` / `List.zipWith`; the pairwise
force loop, which updates two distinct indices per iteration, is translated
as a fold over the explicit pair list with `List.set`, mirroring the
in-place updates of the source.
-/
import Mathlib

noncomputable section

namespace NBody

/-- Three-component real vector, embedding the source's `struct Vec3`
(`double x, y, z`). -/
@[ext]
structure Vec3 where
  x : ℝ
  y : ℝ
  z : ℝ

namespace Vec3

instance : Zero Vec3 := ⟨⟨0, 0, 0⟩⟩
instance : Add Vec3 := ⟨fun a b => ⟨a.x + b.x, a.y + b.y, a.z + b.z⟩⟩
instance : Neg Vec3 := ⟨fun a => ⟨-a.x, -a.y, -a.z⟩⟩
instance : Sub Vec3 := ⟨fun a b => ⟨a.x - b.x, a.y - b.y, a.z - b.z⟩⟩
instance : SMul ℝ Vec3 := ⟨fun c a => ⟨c * a.x, c * a.y, c * a.z⟩⟩
instance : Inhabited Vec3 := ⟨0⟩

@[simp] theorem zero_x : (0 : Vec3).x = 0 := rfl
@[simp] theorem zero_y : (0 : Vec3).y = 0 := rfl
@[simp] theorem zero_z : (0 : Vec3).z = 0 := rfl
@[simp] theorem add_x (a b : Vec3) : (a + b).x = a.x + b.x := rfl
@[simp] theorem add_y (a b : Vec3) : (a + b).y = a.y + b.y := rfl
@[simp] theorem add_z (a b : Vec3) : (a + b).z = a.z + b.z := rfl
@[simp] theorem neg_x (a : Vec3) : (-a).x = -a.x := rfl
@[simp] theorem neg_y (a : Vec3) : (-a).y = -a.y := rfl
@[simp] theorem neg_z (a : Vec3) : (-a).z = -a.z := rfl
@[simp] theorem sub_x (a b : Vec3) : (a - b).x = a.x - b.x := rfl
@[simp] theorem sub_y (a b : Vec3) : (a - b).y = a.y - b.y := rfl
@[simp] theorem sub_z (a b : Vec3) : (a - b).z = a.z - b.z := rfl
@[simp] theorem smul_x (c : ℝ) (a : Vec3) : (c • a).x = c * a.x := rfl
@[simp] theorem smul_y (c : ℝ) (a : Vec3) : (c • a).y = c * a.y := rfl
@[simp] theorem smul_z (c : ℝ) (a : Vec3) : (c • a).z = c * a.z := rfl

instance : AddCommGroup Vec3 where
  add_assoc a b c := by ext <;> simp [add_assoc]
  zero_add a := by ext <;> simp
  add_zero a := by ext <;> simp
  add_comm a b := by ext <;> simp [add_comm]
  neg_add_cancel a := by ext <;> simp
  sub_eq_add_neg a b := by ext <;> simp [sub_eq_add_neg]
  nsmul := nsmulRec
  zsmul := zsmulRec

instance : Module ℝ Vec3 where
  one_smul a := by ext <;> simp
  mul_smul c d a := by ext <;> simp [mul_assoc]
  smul_zero c := by ext <;> simp
  smul_add c a b := by ext <;> simp [mul_add]
  add_smul c d a := by ext <;> simp [add_mul]
  zero_smul a := by ext <;> simp

/-- Euclidean norm, embedding the source's `norm` (`std::sqrt(x*x+y*y+z*z)`). -/
def norm (v : Vec3) : ℝ := Real.sqrt (v.x * v.x + v.y * v.y + v.z * v.z)

/-- Componentwise division by a scalar, embedding `operator/(Vec3, double)`. -/
def div (v : Vec3) (s : ℝ) : Vec3 := ⟨v.x / s, v.y / s, v.z / s⟩

@[simp] theorem div_zero_vec (s : ℝ) : div 0 s = 0 := by
  ext <;> simp [div]

theorem smul_div_cancel (s : ℝ) (hs : s ≠ 0) (v : Vec3) : s • div v s = v := by
  ext <;> simp [div, mul_div_cancel₀, hs, mul_comm, div_mul_cancel₀]

end Vec3

/-- Gravitational constant of the source: `G = 4 * M_PI * M_PI`. -/
def G : ℝ := 4 * Real.pi * Real.pi

/-- Fixed integration time step of the source: `dt = 0.0005`. -/
def dt : ℝ := 0.0005

/-- Regularization epsilon of the source: `EPS = 1e-10`. -/
def EPS : ℝ := 1e-10

/-- One point mass, embedding the physics fields of the source's `struct Body`
(mass, position, velocity, acceleration).  The rendering-only fields
(`shape`, `trail`) are outside the physics core per the specification's
scope and are omitted. -/
structure Body where
  mass : ℝ
  position : Vec3
  velocity : Vec3
  acceleration : Vec3

instance : Inhabited Body := ⟨⟨0, 0, 0, 0⟩⟩

@[simp] theorem default_body_mass : (default : Body).mass = 0 := rfl
@[simp] theorem default_body_position : (default : Body).position = 0 := rfl
@[simp] theorem default_body_velocity : (default : Body).velocity = 0 := rfl
@[simp] theorem default_body_acceleration : (default : Body).acceleration = 0 := rfl

/-- Element access with the default element, standing in for C++ indexed
access `bodies[k]`; all loops of the source stay in bounds, and the
default body is all-zero. -/
def nth {α : Type} [Inhabited α] (l : List α) (k : ℕ) : α := l.getD k default

theorem nth_nil {α : Type} [Inhabited α] (k : ℕ) : nth ([] : List α) k = default := by
  cases k <;> rfl

@[simp] theorem nth_cons_zero {α : Type} [Inhabited α] (a : α) (t : List α) :
    nth (a :: t) 0 = a := rfl

@[simp] theorem nth_cons_succ {α : Type} [Inhabited α] (a : α) (t : List α) (k : ℕ) :
    nth (a :: t) (k + 1) = nth t k := rfl

theorem nth_of_length_le {α : Type} [Inhabited α] :
    ∀ (l : List α) (k : ℕ), l.length ≤ k → nth l k = default := by
  intro l
  induction l with
  | nil => intro k _; exact nth_nil k
  | cons a t ih =>
    intro k hk
    cases k with
    | zero => simp at hk
    | succ m =>
      rw [nth_cons_succ]
      exact ih m (by simpa using hk)

theorem nth_map {α β : Type} [Inhabited α] [Inhabited β] (f : α → β) :
    ∀ (l : List α) (k : ℕ), k < l.length → nth (l.map f) k = f (nth l k) := by
  intro l
  induction l with
  | nil => intro k hk; simp at hk
  | cons a t ih =>
    intro k hk
    cases k with
    | zero => rfl
    | succ m =>
      simpa using ih m (by simpa using hk)

theorem nth_set_self {α : Type} [Inhabited α] :
    ∀ (l : List α) (i : ℕ) (a : α), i < l.length → nth (l.set i a) i = a := by
  intro l
  induction l with
  | nil => intro i a hi; simp at hi
  | cons b t ih =>
    intro i a hi
    cases i with
    | zero => rfl
    | succ m =>
      simpa using ih m a (by simpa using hi)

theorem nth_set_ne {α : Type} [Inhabited α] :
    ∀ (l : List α) (i k : ℕ) (a : α), i ≠ k → nth (l.set i a) k = nth l k := by
  intro l
  induction l with
  | nil => intro i k a _; cases k <;> rfl
  | cons b t ih =>
    intro i k a hik
    cases i with
    | zero =>
      cases k with
      | zero => exact absurd rfl hik
      | succ m => rfl
    | succ n =>
      cases k with
      | zero => rfl
      | succ m =>
        simpa using ih n m a (fun h => hik (by rw [h]))

theorem nth_zipWith {α β γ : Type} [Inhabited α] [Inhabited β] [Inhabited γ]
    (f : α → β → γ) :
    ∀ (l : List α) (m : List β) (k : ℕ), k < l.length → k < m.length →
      nth (List.zipWith f l m) k = f (nth l k) (nth m k) := by
  intro l
  induction l with
  | nil => intro m k hk _; simp at hk
  | cons a t ih =>
    intro m k hk hk2
    cases m with
    | nil => simp at hk2
    | cons b u =>
      cases k with
      | zero => rfl
      | succ n =>
        simpa using ih u n (by simpa using hk) (by simpa using hk2)

theorem nth_ext {α : Type} [Inhabited α] :
    ∀ (l m : List α), l.length = m.length →
      (∀ k, k < l.length → nth l k = nth m k) → l = m := by
  intro l
  induction l with
  | nil =>
    intro m hlen _
    cases m with
    | nil => rfl
    | cons b u => simp at hlen
  | cons a t ih =>
    intro m hlen h
    cases m with
    | nil => simp at hlen
    | cons b u =>
      have h0 : a = b := h 0 (by simp)
      have ht : t = u := by
        refine ih u (by simpa using hlen) ?_
        intro k hk
        simpa using h (k + 1) (by simpa using hk)
      rw [h0, ht]

/-- The gravitational interaction vector of the pair `(i, j)`, read off the
loop body of the source's `computeAccelerations`:
`r = bodies[j].position - bodies[i].position`, `dist = norm(r) + EPS`,
`force = r * (G * (1 / (dist*dist*dist)))`. -/
def pairForce (bs : List Body) (i j : ℕ) : Vec3 :=
  let r := (nth bs j).position - (nth bs i).position
  let dist := r.norm + EPS
  (G * (1 / (dist * dist * dist))) • r

/-- One iteration of the pairwise loop of `computeAccelerations`: add
`bodies[j].mass * force` to body `i`'s acceleration and subtract
`bodies[i].mass * force` from body `j`'s acceleration, in place.  The
source loop only reaches pairs with `i < j`, so the two updates hit
distinct entries. -/
def accumulatePair (bs : List Body) (p : ℕ × ℕ) : List Body :=
  (bs.set p.1 { nth bs p.1 with
    acceleration := (nth bs p.1).acceleration + (nth bs p.2).mass • pairForce bs p.1 p.2 }).set p.2
  { nth bs p.2 with
    acceleration := (nth bs p.2).acceleration - (nth bs p.1).mass • pairForce bs p.1 p.2 }

/-- The index pairs visited by the source's double loop
`for i in [0, n); for j in [i+1, n)`, in loop order. -/
def pairList (n : ℕ) : List (ℕ × ℕ) :=
  (List.range n).flatMap (fun i => (List.range' (i + 1) (n - (i + 1))).map (fun j => (i, j)))

/-- Embedding of the source's `computeAccelerations`: reset every body's
acceleration to zero, then run the pairwise accumulation loop. -/
def computeAccelerations (bs : List Body) : List Body :=
  (pairList bs.length).foldl accumulatePair (bs.map fun b => { b with acceleration := 0 })

/-- Step 1 of the integrator on one body:
`position += velocity*dt + acceleration*(0.5*dt*dt)`. -/
def stepPos (b : Body) : Body :=
  { b with position := b.position + dt • b.velocity + (0.5 * dt * dt) • b.acceleration }

/-- Step 3 of the integrator on one body, given that body's old acceleration:
`velocity += (oldAcc[i] + acceleration) * (0.5 * dt)`. -/
def stepVel (oa : Vec3) (b : Body) : Body :=
  { b with velocity := b.velocity + (0.5 * dt) • (oa + b.acceleration) }

/-- Embedding of the source's `velocityVerlet` (the functional core; the
function-local `static` old-acceleration buffer is modelled separately by
`velocityVerletSt`, which is proved to compute the same result).
Step 1 saves the old accelerations (`oldAcc = bs.map acceleration`) and
moves every body with `stepPos`; step 2 recomputes accelerations at the new
positions; step 3 finishes the velocity update with `stepVel`, pairing each
body with its saved old acceleration. -/
def velocityVerlet (bs : List Body) : List Body :=
  List.zipWith stepVel (bs.map fun b => b.acceleration)
    (computeAccelerations (bs.map stepPos))

/-- Total linear momentum, the accumulator `totalMomentum` of the source's
`enforceBarycenter`. -/
def totalMomentum (bs : List Body) : Vec3 := (bs.map fun b => b.mass • b.velocity).sum

/-- Total mass, the accumulator `totalMass` of the source's
`enforceBarycenter`. -/
def totalMass (bs : List Body) : ℝ := (bs.map fun b => b.mass).sum

/-- Embedding of the source's `enforceBarycenter`: compute
`correction = totalMomentum / totalMass` and subtract it from every body's
velocity.  The source performs the division unconditionally: there is no
check on `totalMass` and no error path. -/
def enforceBarycenter (bs : List Body) : List Body :=
  bs.map fun b => { b with velocity := b.velocity - (totalMomentum bs).div (totalMass bs) }

/-- Mass-weighted sum of accelerations, the quantity whose vanishing makes
`velocityVerlet` conserve momentum. -/
def weightedAccel (bs : List Body) : Vec3 := (bs.map fun b => b.mass • b.acceleration).sum

/-- Number of integration sub-steps per external tick, the literal `5` of
the source's `for (int i = 0; i < 5; ++i) velocityVerlet(bodies);`. -/
def SUBSTEPS : ℕ := 5

/-- The physics part of one driver tick: the source's fixed-count sub-step
loop, run as written (a counted loop over `SUBSTEPS` iterations). -/
def tickPhysics (bs : List Body) : List Body :=
  (List.range SUBSTEPS).foldl (fun s _ => velocityVerlet s) bs

/-- C++ `std::vector::resize` on the old-acceleration buffer: truncate when
shrinking, pad with value-initialized (zero) entries when growing. -/
def resizeBuf (buf : List Vec3) (n : ℕ) : List Vec3 :=
  if buf.length ≤ n then buf ++ List.replicate (n - buf.length) 0 else buf.take n

/-- Stateful embedding of the source's `velocityVerlet` including its
function-local `static std::vector<Vec3> oldAcc` buffer, threaded
explicitly: the call receives the buffer left behind by the previous call
(to any system), resizes it to the current body count, overwrites every
entry with the current accelerations while moving the bodies, and returns
the buffer it leaves behind together with the updated bodies. -/
def velocityVerletSt (buf : List Vec3) (bs : List Body) : List Vec3 × List Body :=
  let buf1 := resizeBuf buf bs.length
  let buf2 := (List.range bs.length).foldl (fun bf i => bf.set i (nth bs i).acceleration) buf1
  (buf2, List.zipWith stepVel buf2 (computeAccelerations (bs.map stepPos)))

/-- Interleaved stepping of two independent systems through the one shared
static buffer, as C++ would execute `velocityVerlet(a); velocityVerlet(b);`
repeatedly. -/
def interleaveSteps : ℕ → List Vec3 → List Body → List Body → List Body × List Body
  | 0, _, a, b => (a, b)
  | n + 1, buf, a, b =>
    let ra := velocityVerletSt buf a
    let rb := velocityVerletSt ra.1 b
    interleaveSteps n rb.1 ra.2 rb.2

/-- Error raised by the specification's Barycenter Corrector on a zero
total mass. -/
inductive BaryError where
  | degenerateSystem

/-- Modelled from the spec: the fail-fast Barycenter Corrector of the
specification (sections 4.4, 7, 8), which the source does not implement —
"totalMass == 0 is a degenerate configuration ... must fail fast rather
than divide by zero", raising `DegenerateSystem`; otherwise it performs the
momentum correction. -/
def enforceBarycenterChecked (bs : List Body) : Except BaryError (List Body) :=
  if totalMass bs = 0 then Except.error BaryError.degenerateSystem
  else Except.ok (enforceBarycenter bs)

/-- The per-pair acceleration contribution received by body `k` from the
loop iteration of pair `p`, exactly as the claims describe it: the pair's
force scaled by the partner's mass, added at `i` and subtracted at `j`. -/
def pairContrib (bs : List Body) (p : ℕ × ℕ) (k : ℕ) : Vec3 :=
  if k = p.1 then (nth bs p.2).mass • pairForce bs p.1 p.2
  else if k = p.2 then -((nth bs p.1).mass • pairForce bs p.1 p.2)
  else 0

/-- Two body lists agree on everything except (possibly) accelerations. -/
def sameSkeleton (cs bs : List Body) : Prop :=
  cs.length = bs.length ∧
    ∀ k, (nth cs k).mass = (nth bs k).mass ∧
      (nth cs k).position = (nth bs k).position ∧
      (nth cs k).velocity = (nth bs k).velocity

theorem sameSkeleton_refl (bs : List Body) : sameSkeleton bs bs :=
  ⟨rfl, fun _ => ⟨rfl, rfl, rfl⟩⟩

theorem sameSkeleton_trans {as bs cs : List Body} (h1 : sameSkeleton as bs)
    (h2 : sameSkeleton bs cs) : sameSkeleton as cs := by
  refine ⟨h1.1.trans h2.1, fun k => ?_⟩
  obtain ⟨m1, p1, v1⟩ := h1.2 k
  obtain ⟨m2, p2, v2⟩ := h2.2 k
  exact ⟨m1.trans m2, p1.trans p2, v1.trans v2⟩

theorem pairForce_congr {cs bs : List Body} (h : sameSkeleton cs bs) (i j : ℕ) :
    pairForce cs i j = pairForce bs i j := by
  unfold pairForce
  rw [(h.2 i).2.1, (h.2 j).2.1]

theorem pairContrib_congr {cs bs : List Body} (h : sameSkeleton cs bs) (p : ℕ × ℕ) (k : ℕ) :
    pairContrib cs p k = pairContrib bs p k := by
  unfold pairContrib
  rw [(h.2 p.1).1, (h.2 p.2).1, pairForce_congr h]

theorem length_accumulatePair (cs : List Body) (p : ℕ × ℕ) :
    (accumulatePair cs p).length = cs.length := by
  simp [accumulatePair]

theorem nth_accumulatePair_other (cs : List Body) (i j k : ℕ) (hki : k ≠ i) (hkj : k ≠ j) :
    nth (accumulatePair cs (i, j)) k = nth cs k := by
  unfold accumulatePair
  rw [nth_set_ne _ _ _ _ (fun h => hkj h.symm), nth_set_ne _ _ _ _ (fun h => hki h.symm)]

theorem nth_accumulatePair_fst (cs : List Body) (i j : ℕ) (hij : i ≠ j) (hi : i < cs.length) :
    nth (accumulatePair cs (i, j)) i
      = { nth cs i with
          acceleration := (nth cs i).acceleration + (nth cs j).mass • pairForce cs i j } := by
  unfold accumulatePair
  rw [nth_set_ne _ _ _ _ (fun h => hij h.symm), nth_set_self _ _ _ hi]

theorem nth_accumulatePair_snd (cs : List Body) (i j : ℕ) (hj : j < cs.length) :
    nth (accumulatePair cs (i, j)) j
      = { nth cs j with
          acceleration := (nth cs j).acceleration - (nth cs i).mass • pairForce cs i j } := by
  unfold accumulatePair
  rw [nth_set_self _ _ _ (by simpa using hj)]

theorem sameSkeleton_accumulatePair (cs : List Body) (p : ℕ × ℕ)
    (hij : p.1 < p.2) (hj : p.2 < cs.length) :
    sameSkeleton (accumulatePair cs p) cs := by
  obtain ⟨i, j⟩ := p
  simp only at hij hj
  have hne : i ≠ j := Nat.ne_of_lt hij
  refine ⟨length_accumulatePair cs (i, j), fun k => ?_⟩
  by_cases hki : k = i
  · rw [hki, nth_accumulatePair_fst cs i j hne (by omega)]
    exact ⟨rfl, rfl, rfl⟩
  · by_cases hkj : k = j
    · rw [hkj, nth_accumulatePair_snd cs i j hj]
      exact ⟨rfl, rfl, rfl⟩
    · rw [nth_accumulatePair_other cs i j k hki hkj]
      exact ⟨rfl, rfl, rfl⟩

theorem accumulatePair_accel (cs : List Body) (p : ℕ × ℕ)
    (hij : p.1 < p.2) (hj : p.2 < cs.length) (k : ℕ) :
    (nth (accumulatePair cs p) k).acceleration
      = (nth cs k).acceleration + pairContrib cs p k := by
  obtain ⟨i, j⟩ := p
  simp only at hij hj
  have hne : i ≠ j := Nat.ne_of_lt hij
  by_cases hki : k = i
  · rw [hki, nth_accumulatePair_fst cs i j hne (by omega)]
    simp [pairContrib, hne]
  · by_cases hkj : k = j
    · rw [hkj, nth_accumulatePair_snd cs i j hj]
      have hji : ¬(j = i) := fun h => hne h.symm
      simp only [pairContrib, if_neg hji, if_pos rfl, if_true]
      rw [sub_eq_add_neg]
    · rw [nth_accumulatePair_other cs i j k hki hkj]
      simp [pairContrib, hki, hkj]

theorem foldl_accumulatePair_spec (ps : List (ℕ × ℕ)) :
    ∀ (cs bs : List Body), sameSkeleton cs bs →
      (∀ p ∈ ps, p.1 < p.2 ∧ p.2 < bs.length) →
      sameSkeleton (ps.foldl accumulatePair cs) bs ∧
        ∀ k, (nth (ps.foldl accumulatePair cs) k).acceleration
          = (nth cs k).acceleration + ((ps.map fun p => pairContrib bs p k)).sum := by
  induction ps with
  | nil =>
    intro cs bs hsk _
    exact ⟨hsk, fun k => by simp⟩
  | cons p ps ih =>
    intro cs bs hsk hbounds
    have hp := hbounds p (by simp)
    have hsk2 : sameSkeleton (accumulatePair cs p) bs :=
      sameSkeleton_trans
        (sameSkeleton_accumulatePair cs p hp.1 (by rw [hsk.1]; exact hp.2)) hsk
    have hrest : ∀ q ∈ ps, q.1 < q.2 ∧ q.2 < bs.length := by
      intro q hq; exact hbounds q (by simp [hq])
    obtain ⟨hsk3, haccel⟩ := ih (accumulatePair cs p) bs hsk2 hrest
    refine ⟨by simpa using hsk3, fun k => ?_⟩
    have hstep := accumulatePair_accel cs p hp.1 (by rw [hsk.1]; exact hp.2) k
    calc (nth ((p :: ps).foldl accumulatePair cs) k).acceleration
        = (nth (accumulatePair cs p) k).acceleration
            + ((ps.map fun q => pairContrib bs q k)).sum := haccel k
      _ = (nth cs k).acceleration + pairContrib cs p k
            + ((ps.map fun q => pairContrib bs q k)).sum := by rw [hstep]
      _ = (nth cs k).acceleration
            + (((p :: ps).map fun q => pairContrib bs q k)).sum := by
            rw [pairContrib_congr hsk]
            simp [add_assoc]

theorem mem_pairList {n : ℕ} {p : ℕ × ℕ} (h : p ∈ pairList n) :
    p.1 < p.2 ∧ p.2 < n := by
  simp only [pairList, List.mem_flatMap, List.mem_map, List.mem_range,
    List.mem_range'] at h
  obtain ⟨i, hi, j, ⟨t, ht, hj⟩, hp⟩ := h
  rw [← hp]
  constructor
  · omega
  · omega

theorem sameSkeleton_reset (bs : List Body) :
    sameSkeleton (bs.map fun b => { b with acceleration := 0 }) bs := by
  refine ⟨by simp, fun k => ?_⟩
  by_cases hk : k < bs.length
  · rw [nth_map _ _ _ hk]
    exact ⟨rfl, rfl, rfl⟩
  · rw [nth_of_length_le _ _ (by simpa using Nat.le_of_not_lt hk),
      nth_of_length_le _ _ (Nat.le_of_not_lt hk)]
    exact ⟨rfl, rfl, rfl⟩

theorem reset_accel (bs : List Body) (k : ℕ) :
    (nth (bs.map fun b => ({ b with acceleration := 0 } : Body)) k).acceleration = 0 := by
  by_cases hk : k < bs.length
  · rw [nth_map _ _ _ hk]
  · rw [nth_of_length_le _ _ (by simpa using Nat.le_of_not_lt hk)]
    rfl

theorem sameSkeleton_computeAccelerations (bs : List Body) :
    sameSkeleton (computeAccelerations bs) bs := by
  have h := foldl_accumulatePair_spec (pairList bs.length)
    (bs.map fun b => { b with acceleration := 0 }) bs (sameSkeleton_reset bs)
    (fun p hp => mem_pairList hp)
  exact h.1

theorem length_computeAccelerations (bs : List Body) :
    (computeAccelerations bs).length = bs.length :=
  (sameSkeleton_computeAccelerations bs).1

theorem computeAccelerations_accel (bs : List Body) (k : ℕ) :
    (nth (computeAccelerations bs) k).acceleration
      = ((pairList bs.length).map fun p => pairContrib bs p k).sum := by
  have h := foldl_accumulatePair_spec (pairList bs.length)
    (bs.map fun b => { b with acceleration := 0 }) bs (sameSkeleton_reset bs)
    (fun p hp => mem_pairList hp)
  have h2 := h.2 k
  rw [reset_accel, zero_add] at h2
  exact h2

theorem sum_map_set (g : Body → Vec3) :
    ∀ (l : List Body) (i : ℕ) (x : Body), i < l.length →
      ((l.set i x).map g).sum = (l.map g).sum - g (nth l i) + g x := by
  intro l
  induction l with
  | nil => intro i x hi; simp at hi
  | cons a t ih =>
    intro i x hi
    cases i with
    | zero =>
      simp only [List.set_cons_zero, List.map_cons, List.sum_cons, nth_cons_zero]
      abel
    | succ m =>
      simp only [List.set_cons_succ, List.map_cons, List.sum_cons, nth_cons_succ]
      rw [ih m x (by simpa using hi)]
      abel

theorem weightedAccel_accumulatePair (cs : List Body) (i j : ℕ)
    (hij : i < j) (hj : j < cs.length) :
    weightedAccel (accumulatePair cs (i, j)) = weightedAccel cs := by
  have hne : i ≠ j := Nat.ne_of_lt hij
  have hi : i < cs.length := by omega
  unfold weightedAccel accumulatePair
  rw [sum_map_set _ _ _ _ (by simpa using hj), nth_set_ne _ _ _ _ hne,
    sum_map_set _ _ _ _ hi]
  simp only [smul_add, smul_sub, smul_smul]
  rw [mul_comm ((nth cs (i, j).2).mass) ((nth cs (i, j).1).mass)]
  abel

theorem weightedAccel_foldl (ps : List (ℕ × ℕ)) :
    ∀ (cs : List Body), (∀ p ∈ ps, p.1 < p.2 ∧ p.2 < cs.length) →
      weightedAccel (ps.foldl accumulatePair cs) = weightedAccel cs := by
  induction ps with
  | nil => intro cs _; rfl
  | cons p ps ih =>
    intro cs hbounds
    have hp := hbounds p (by simp)
    have hlen : (accumulatePair cs p).length = cs.length := length_accumulatePair cs p
    have hrest : ∀ q ∈ ps, q.1 < q.2 ∧ q.2 < (accumulatePair cs p).length := by
      intro q hq
      rw [hlen]
      exact hbounds q (by simp [hq])
    calc weightedAccel ((p :: ps).foldl accumulatePair cs)
        = weightedAccel (accumulatePair cs p) := ih (accumulatePair cs p) hrest
      _ = weightedAccel cs := by
          obtain ⟨i, j⟩ := p
          exact weightedAccel_accumulatePair cs i j hp.1 hp.2

theorem weightedAccel_reset (bs : List Body) :
    weightedAccel (bs.map fun b => ({ b with acceleration := 0 } : Body)) = 0 := by
  unfold weightedAccel
  rw [List.map_map]
  have h : ((fun (b : Body) => b.mass • b.acceleration) ∘
      fun (b : Body) => { b with acceleration := 0 }) = fun _ => (0 : Vec3) := by
    funext b
    simp
  rw [h]
  induction bs with
  | nil => rfl
  | cons a t ih => simp [ih]

theorem weightedAccel_computeAccelerations (bs : List Body) :
    weightedAccel (computeAccelerations bs) = 0 := by
  unfold computeAccelerations
  rw [weightedAccel_foldl _ _ ?_, weightedAccel_reset]
  intro p hp
  have h := mem_pairList hp
  simpa using h

theorem totalMomentum_of_sameSkeleton {cs bs : List Body} (h : sameSkeleton cs bs) :
    totalMomentum cs = totalMomentum bs := by
  unfold totalMomentum
  congr 1
  refine nth_ext _ _ (by simp [h.1]) ?_
  intro k hk
  have hk2 : k < cs.length := by simpa using hk
  rw [nth_map _ _ _ hk2, nth_map _ _ _ (by rw [← h.1]; exact hk2),
    (h.2 k).1, (h.2 k).2.2]

theorem totalMass_of_sameSkeleton {cs bs : List Body} (h : sameSkeleton cs bs) :
    totalMass cs = totalMass bs := by
  unfold totalMass
  congr 1
  refine nth_ext _ _ (by simp [h.1]) ?_
  intro k hk
  have hk2 : k < cs.length := by simpa using hk
  rw [nth_map _ _ _ hk2, nth_map _ _ _ (by rw [← h.1]; exact hk2), (h.2 k).1]

theorem sum_zipWith_add {α β M : Type} [AddCommMonoid M] (u v : α → β → M) :
    ∀ (l : List α) (m : List β),
      (List.zipWith (fun a b => u a b + v a b) l m).sum
        = (List.zipWith u l m).sum + (List.zipWith v l m).sum := by
  intro l
  induction l with
  | nil => intro m; simp
  | cons a t ih =>
    intro m
    cases m with
    | nil => simp
    | cons b s =>
      simp only [List.zipWith_cons_cons, List.sum_cons, ih s]
      rw [add_add_add_comm]

theorem sum_zipWith_smul {α β : Type} (c : ℝ) (u : α → β → Vec3) :
    ∀ (l : List α) (m : List β),
      (List.zipWith (fun a b => c • u a b) l m).sum
        = c • (List.zipWith u l m).sum := by
  intro l
  induction l with
  | nil => intro m; simp
  | cons a t ih =>
    intro m
    cases m with
    | nil => simp
    | cons b s =>
      simp only [List.zipWith_cons_cons, List.sum_cons, ih s, smul_add]

theorem zipWith_snd {α β γ : Type} (g : β → γ) :
    ∀ (l : List α) (m : List β), m.length ≤ l.length →
      List.zipWith (fun _ b => g b) l m = m.map g := by
  intro l
  induction l with
  | nil =>
    intro m hm
    cases m with
    | nil => rfl
    | cons b s => simp at hm
  | cons a t ih =>
    intro m hm
    cases m with
    | nil => rfl
    | cons b s =>
      simp only [List.zipWith_cons_cons, List.map_cons]
      rw [ih s (by simpa using hm)]

theorem length_velocityVerlet (bs : List Body) :
    (velocityVerlet bs).length = bs.length := by
  simp [velocityVerlet, length_computeAccelerations]

theorem totalMomentum_stepPos (bs : List Body) :
    totalMomentum (bs.map stepPos) = totalMomentum bs := by
  unfold totalMomentum
  rw [List.map_map]
  rfl

theorem mass_nth_recomputed (bs : List Body) (k : ℕ) (hk : k < bs.length) :
    (nth (computeAccelerations (bs.map stepPos)) k).mass = (nth bs k).mass := by
  have h := (sameSkeleton_computeAccelerations (bs.map stepPos)).2 k
  rw [h.1, nth_map _ _ _ (by simpa using hk)]
  rfl

theorem totalMomentum_velocityVerlet (bs : List Body) :
    totalMomentum (velocityVerlet bs)
      = totalMomentum bs + (0.5 * dt) • weightedAccel bs := by
  have hlenRec : (computeAccelerations (bs.map stepPos)).length = bs.length := by
    rw [length_computeAccelerations, List.length_map]
  unfold totalMomentum velocityVerlet
  rw [List.map_zipWith]
  have hfun : (fun (oa : Vec3) (b : Body) => (stepVel oa b).mass • (stepVel oa b).velocity)
      = fun (oa : Vec3) (b : Body) => b.mass • b.velocity
          + ((0.5 * dt) • (b.mass • oa) + (0.5 * dt) • (b.mass • b.acceleration)) := by
    funext oa b
    show b.mass • (b.velocity + (0.5 * dt) • (oa + b.acceleration)) = _
    ext <;> simp <;> ring
  rw [hfun, sum_zipWith_add (fun (oa : Vec3) (b : Body) => b.mass • b.velocity)
      (fun (oa : Vec3) (b : Body) =>
        (0.5 * dt) • (b.mass • oa) + (0.5 * dt) • (b.mass • b.acceleration)),
    sum_zipWith_add (fun (oa : Vec3) (b : Body) => (0.5 * dt) • (b.mass • oa))
      (fun (oa : Vec3) (b : Body) => (0.5 * dt) • (b.mass • b.acceleration)),
    sum_zipWith_smul (0.5 * dt) (fun (oa : Vec3) (b : Body) => b.mass • oa),
    sum_zipWith_smul (0.5 * dt) (fun (oa : Vec3) (b : Body) => b.mass • b.acceleration)]
  have h1 : (List.zipWith (fun (oa : Vec3) (b : Body) => b.mass • b.velocity)
      (bs.map fun b => b.acceleration) (computeAccelerations (bs.map stepPos))).sum
      = totalMomentum bs := by
    rw [zipWith_snd _ _ _ (by simp [hlenRec])]
    have h := totalMomentum_of_sameSkeleton (sameSkeleton_computeAccelerations (bs.map stepPos))
    calc ((computeAccelerations (bs.map stepPos)).map fun b => b.mass • b.velocity).sum
        = totalMomentum (computeAccelerations (bs.map stepPos)) := rfl
      _ = totalMomentum (bs.map stepPos) := h
      _ = totalMomentum bs := totalMomentum_stepPos bs
  have h2 : List.zipWith (fun (oa : Vec3) (b : Body) => b.mass • oa)
      (bs.map fun b => b.acceleration) (computeAccelerations (bs.map stepPos))
      = bs.map fun b => b.mass • b.acceleration := by
    refine nth_ext _ _ (by simp [hlenRec]) ?_
    intro k hk
    have hkn : k < bs.length := by
      simpa [hlenRec] using hk
    rw [nth_zipWith _ _ _ _ (by simpa using hkn) (by rw [hlenRec]; exact hkn),
      nth_map _ _ _ hkn, nth_map _ _ _ hkn, mass_nth_recomputed bs k hkn]
  have h3 : (List.zipWith (fun (oa : Vec3) (b : Body) => b.mass • b.acceleration)
      (bs.map fun b => b.acceleration) (computeAccelerations (bs.map stepPos))).sum
      = (0 : Vec3) := by
    rw [zipWith_snd _ _ _ (by simp [hlenRec])]
    exact weightedAccel_computeAccelerations (bs.map stepPos)
  rw [h1, h2, h3, smul_zero, add_zero]
  rfl

theorem weightedAccel_velocityVerlet (bs : List Body) :
    weightedAccel (velocityVerlet bs) = 0 := by
  have hlenRec : (computeAccelerations (bs.map stepPos)).length = bs.length := by
    rw [length_computeAccelerations, List.length_map]
  unfold weightedAccel velocityVerlet
  rw [List.map_zipWith]
  have hfun : (fun (oa : Vec3) (b : Body) => (stepVel oa b).mass • (stepVel oa b).acceleration)
      = fun (oa : Vec3) (b : Body) => b.mass • b.acceleration := by
    funext oa b
    rfl
  rw [hfun, zipWith_snd _ _ _ (by simp [hlenRec])]
  exact weightedAccel_computeAccelerations (bs.map stepPos)

theorem sum_mass_smul_sub (c : Vec3) :
    ∀ (l : List Body),
      (l.map fun b => b.mass • (b.velocity - c)).sum
        = (l.map fun b => b.mass • b.velocity).sum - (l.map fun b => b.mass).sum • c := by
  intro l
  induction l with
  | nil => simp
  | cons a t ih =>
    simp only [List.map_cons, List.sum_cons]
    rw [ih, smul_sub, add_smul]
    abel

theorem totalMomentum_enforceBarycenter (bs : List Body) (h : totalMass bs ≠ 0) :
    totalMomentum (enforceBarycenter bs) = 0 := by
  have step : totalMomentum (enforceBarycenter bs)
      = totalMomentum bs - (totalMass bs) • (totalMomentum bs).div (totalMass bs) := by
    unfold totalMomentum totalMass enforceBarycenter
    rw [List.map_map]
    exact sum_mass_smul_sub _ bs
  rw [step, Vec3.smul_div_cancel _ h, sub_self]

theorem totalMass_enforceBarycenter (bs : List Body) :
    totalMass (enforceBarycenter bs) = totalMass bs := by
  unfold totalMass enforceBarycenter
  rw [List.map_map]
  rfl

theorem weightedAccel_enforceBarycenter (bs : List Body) :
    weightedAccel (enforceBarycenter bs) = weightedAccel bs := by
  unfold weightedAccel enforceBarycenter
  rw [List.map_map]
  rfl

theorem length_enforceBarycenter (bs : List Body) :
    (enforceBarycenter bs).length = bs.length := by
  simp [enforceBarycenter]

theorem enforceBarycenter_of_zero_momentum (l : List Body) (h : totalMomentum l = 0) :
    enforceBarycenter l = l := by
  unfold enforceBarycenter
  rw [h, Vec3.div_zero_vec]
  have hfun : (fun (b : Body) => { b with velocity := b.velocity - (0 : Vec3) })
      = fun (b : Body) => b := by
    funext b
    cases b with
    | mk m p v a => simp
  rw [hfun]
  simp

theorem length_resizeBuf (buf : List Vec3) (n : ℕ) : (resizeBuf buf n).length = n := by
  unfold resizeBuf
  by_cases h : buf.length ≤ n
  · rw [if_pos h]
    simp [Nat.add_sub_cancel' h]
  · rw [if_neg h]
    simp
    omega

theorem foldl_set_map_succ {α : Type} (f : ℕ → α) :
    ∀ (is : List ℕ) (b : α) (t : List α),
      (is.map Nat.succ).foldl (fun bf i => bf.set i (f i)) (b :: t)
        = b :: is.foldl (fun bf i => bf.set i (f (i + 1))) t := by
  intro is
  induction is with
  | nil => intro b t; rfl
  | cons i is ih =>
    intro b t
    simp only [List.map_cons, List.foldl_cons, List.set_cons_succ]
    exact ih b _

theorem fill_spec {α : Type} :
    ∀ (l : List α) (f : ℕ → α),
      (List.range l.length).foldl (fun bf i => bf.set i (f i)) l
        = (List.range l.length).map f := by
  intro l
  induction l with
  | nil => intro f; rfl
  | cons a t ih =>
    intro f
    rw [List.length_cons, List.range_succ_eq_map]
    simp only [List.foldl_cons, List.map_cons, List.set_cons_zero]
    rw [foldl_set_map_succ f _ (f 0) t, ih (fun i => f (i + 1)), List.map_map]
    rfl

theorem range_map_nth {α β : Type} [Inhabited α] (g : α → β) :
    ∀ (l : List α), (List.range l.length).map (fun i => g (nth l i)) = l.map g := by
  intro l
  induction l with
  | nil => rfl
  | cons a t ih =>
    rw [List.length_cons, List.range_succ_eq_map, List.map_cons, List.map_map, List.map_cons]
    have hcomp : ((fun i => g (nth (a :: t) i)) ∘ Nat.succ) = fun i => g (nth t i) := rfl
    rw [hcomp, ih]
    rfl

theorem buffer_after (buf : List Vec3) (bs : List Body) :
    (List.range bs.length).foldl (fun bf i => bf.set i (nth bs i).acceleration)
        (resizeBuf buf bs.length)
      = bs.map fun b => b.acceleration := by
  have hlen : (resizeBuf buf bs.length).length = bs.length := length_resizeBuf buf bs.length
  calc (List.range bs.length).foldl (fun bf i => bf.set i (nth bs i).acceleration)
        (resizeBuf buf bs.length)
      = (List.range (resizeBuf buf bs.length).length).foldl
          (fun bf i => bf.set i (nth bs i).acceleration) (resizeBuf buf bs.length) := by
        rw [hlen]
    _ = (List.range (resizeBuf buf bs.length).length).map
          (fun i => (nth bs i).acceleration) := fill_spec _ _
    _ = (List.range bs.length).map (fun i => (nth bs i).acceleration) := by rw [hlen]
    _ = bs.map fun b => b.acceleration := range_map_nth _ bs

theorem velocityVerletSt_spec (buf : List Vec3) (bs : List Body) :
    velocityVerletSt buf bs = (bs.map fun b => b.acceleration, velocityVerlet bs) := by
  simp only [velocityVerletSt, velocityVerlet]
  rw [buffer_after]

theorem pipeline_momentum (bs : List Body) (h : totalMass bs ≠ 0) :
    ∀ n : ℕ,
      totalMomentum (velocityVerlet^[n] (enforceBarycenter (computeAccelerations bs))) = 0 := by
  have hM0 : totalMass (computeAccelerations bs) = totalMass bs :=
    totalMass_of_sameSkeleton (sameSkeleton_computeAccelerations bs)
  have hP : totalMomentum (enforceBarycenter (computeAccelerations bs)) = 0 :=
    totalMomentum_enforceBarycenter _ (by rwa [hM0])
  have hW : weightedAccel (enforceBarycenter (computeAccelerations bs)) = 0 := by
    rw [weightedAccel_enforceBarycenter, weightedAccel_computeAccelerations]
  have key : ∀ n : ℕ,
      totalMomentum (velocityVerlet^[n] (enforceBarycenter (computeAccelerations bs))) = 0 ∧
      weightedAccel (velocityVerlet^[n] (enforceBarycenter (computeAccelerations bs))) = 0 := by
    intro n
    induction n with
    | zero => exact ⟨hP, hW⟩
    | succ m ih =>
      rw [Function.iterate_succ_apply']
      exact ⟨by rw [totalMomentum_velocityVerlet, ih.1, ih.2, smul_zero, add_zero],
        weightedAccel_velocityVerlet _⟩
  exact fun n => (key n).1

theorem interleaveSteps_pure :
    ∀ (n : ℕ) (buf : List Vec3) (a b : List Body),
      interleaveSteps n buf a b = (velocityVerlet^[n] a, velocityVerlet^[n] b) := by
  intro n
  induction n with
  | zero => intro buf a b; rfl
  | succ m ih =>
    intro buf a b
    simp only [interleaveSteps, velocityVerletSt_spec]
    rw [ih, Function.iterate_succ_apply, Function.iterate_succ_apply]

/-- Concrete unit-mass body at the origin, used as witness input. -/
def wbA : Body := ⟨1, 0, 0, 0⟩

/-- Concrete mass-2 body at `x = 1`, used as witness input. -/
def wbB : Body := ⟨2, ⟨1, 0, 0⟩, 0, 0⟩

/-- Concrete massless body with nonzero velocity: a zero-total-mass System. -/
def degBody : Body := ⟨0, 0, ⟨1, 2, 3⟩, 0⟩

/-- Claim C1: one `velocityVerlet` call advances every body by one fixed step
`dt` following the three-step velocity-Verlet scheme: every body's position
becomes `position + velocity*dt + 0.5*acceleration*dt^2` while the pre-update
acceleration is remembered, accelerations are recomputed for the new
positions via `computeAccelerations`, and every body's velocity becomes
`velocity + 0.5*(old_acceleration + new_acceleration)*dt`.  Stated pointwise
for every index, together with preservation of the body count. -/
theorem claim_C1 (bs : List Body) :
    (velocityVerlet bs).length = bs.length ∧
    ∀ k : ℕ,
      (nth (velocityVerlet bs) k).position
        = (nth bs k).position + dt • (nth bs k).velocity
          + (0.5 * dt * dt) • (nth bs k).acceleration ∧
      (nth (velocityVerlet bs) k).acceleration
        = (nth (computeAccelerations (bs.map stepPos)) k).acceleration ∧
      (nth (velocityVerlet bs) k).velocity
        = (nth bs k).velocity + (0.5 * dt) • ((nth bs k).acceleration
            + (nth (computeAccelerations (bs.map stepPos)) k).acceleration) := by
  refine ⟨length_velocityVerlet bs, fun k => ?_⟩
  have hlenRec : (computeAccelerations (bs.map stepPos)).length = bs.length := by
    rw [length_computeAccelerations, List.length_map]
  by_cases hk : k < bs.length
  · have hz := nth_zipWith stepVel (bs.map fun b => b.acceleration)
      (computeAccelerations (bs.map stepPos)) k (by simpa using hk)
      (by rw [hlenRec]; exact hk)
    have hold : nth (bs.map fun b => b.acceleration) k = (nth bs k).acceleration :=
      nth_map _ _ _ hk
    have hsk := (sameSkeleton_computeAccelerations (bs.map stepPos)).2 k
    have hpos : (nth (computeAccelerations (bs.map stepPos)) k).position
        = (nth bs k).position + dt • (nth bs k).velocity
          + (0.5 * dt * dt) • (nth bs k).acceleration := by
      rw [hsk.2.1, nth_map _ _ _ (by simpa using hk)]
      rfl
    have hvel : (nth (computeAccelerations (bs.map stepPos)) k).velocity
        = (nth bs k).velocity := by
      rw [hsk.2.2, nth_map _ _ _ (by simpa using hk)]
      rfl
    unfold velocityVerlet
    rw [hz, hold]
    refine ⟨?_, rfl, ?_⟩
    · exact hpos
    · show (nth (computeAccelerations (bs.map stepPos)) k).velocity
          + (0.5 * dt) • ((nth bs k).acceleration
            + (nth (computeAccelerations (bs.map stepPos)) k).acceleration) = _
      rw [hvel]
  · have hk2 : bs.length ≤ k := Nat.le_of_not_lt hk
    rw [nth_of_length_le (velocityVerlet bs) k (by rw [length_velocityVerlet]; omega),
      nth_of_length_le bs k hk2,
      nth_of_length_le (computeAccelerations (bs.map stepPos)) k (by rw [hlenRec]; omega)]
    refine ⟨by simp, rfl, by simp⟩

/-- Claim C2: `computeAccelerations` on any list of bodies first resets every
acceleration to zero, then for every pair `(i, j)` with `i < j` adds to body
`i` the contribution `(G / dist^3) * r` scaled by body `j`'s mass and
subtracts the same contribution scaled by body `i`'s mass from body `j`
(`r = position_j - position_i`, `dist = norm r + EPS`): every body's final
acceleration is exactly the sum of its per-pair contributions over the
pair list, starting from zero. -/
theorem claim_C2 (bs : List Body) (k : ℕ) :
    (nth (computeAccelerations bs) k).acceleration
      = ((pairList bs.length).map fun p => pairContrib bs p k).sum :=
  computeAccelerations_accel bs k

/-- Claim C3 counterexample: on the one-body massless System `[degBody]` the
total mass is zero, the specification's fail-fast corrector
(`enforceBarycenterChecked`, modelled from the spec) returns the
`DegenerateSystem` error — but the source's `enforceBarycenter` has no error
path at all: it returns a normal one-element body list, having executed the
division by the zero total mass (IEEE NaN in the C++ source; total division
in this exact-arithmetic embedding). -/
theorem claim_C3_counterexample :
    totalMass [degBody] = 0 ∧
    enforceBarycenterChecked [degBody] = Except.error BaryError.degenerateSystem ∧
    (enforceBarycenter [degBody]).length = 1 := by
  have h : totalMass [degBody] = 0 := by simp [totalMass, degBody]
  refine ⟨h, ?_, ?_⟩
  · simp [enforceBarycenterChecked, h]
  · rw [length_enforceBarycenter]
    rfl

/-- Claim C3 (amended): when `enforceBarycenter` is invoked on a System whose
total mass is zero it does not fail fast: the source has no `DegenerateSystem`
error and no zero check, so the call performs the degenerate division and
returns normally with one output body per input body, exactly where the
specification's checked corrector (`enforceBarycenterChecked`) would have
surfaced `DegenerateSystem` before integration. -/
theorem claim_C3 (bs : List Body) (h : totalMass bs = 0) :
    (enforceBarycenter bs).length = bs.length ∧
    enforceBarycenterChecked bs = Except.error BaryError.degenerateSystem :=
  ⟨length_enforceBarycenter bs, by simp [enforceBarycenterChecked, h]⟩

/-- Claim C3 witness: the amended statement instantiated at the concrete
zero-total-mass System `[degBody]`. -/
theorem claim_C3_witness :
    totalMass [degBody] = 0 ∧
    (enforceBarycenter [degBody]).length = [degBody].length ∧
    enforceBarycenterChecked [degBody] = Except.error BaryError.degenerateSystem := by
  have h : totalMass [degBody] = 0 := by simp [totalMass, degBody]
  have h2 := claim_C3 [degBody] h
  exact ⟨h, h2.1, h2.2⟩

/-- Claim C4: within `computeAccelerations`, each single pair update obeys
Newton's third law before other pairs are summed in: body `i`'s mass times
the acceleration increment it receives equals the negation of body `j`'s
mass times the acceleration increment body `j` receives. -/
theorem claim_C4 (bs : List Body) (i j : ℕ) (hij : i < j) (hj : j < bs.length) :
    (nth bs i).mass
        • ((nth (accumulatePair bs (i, j)) i).acceleration - (nth bs i).acceleration)
      = -((nth bs j).mass
        • ((nth (accumulatePair bs (i, j)) j).acceleration - (nth bs j).acceleration)) := by
  have hne : i ≠ j := Nat.ne_of_lt hij
  rw [nth_accumulatePair_fst bs i j hne (by omega), nth_accumulatePair_snd bs i j hj]
  simp only [add_sub_cancel_left, sub_sub_cancel_left, smul_neg, neg_neg, smul_smul]
  rw [mul_comm]

/-- Claim C4 witness: Newton's third law for the single pair update on the
concrete two-body System `[wbA, wbB]` with the pair `(0, 1)`. -/
theorem claim_C4_witness :
    1 < ([wbA, wbB] : List Body).length ∧
    (nth ([wbA, wbB] : List Body) 0).mass
        • ((nth (accumulatePair [wbA, wbB] (0, 1)) 0).acceleration
            - (nth ([wbA, wbB] : List Body) 0).acceleration)
      = -((nth ([wbA, wbB] : List Body) 1).mass
        • ((nth (accumulatePair [wbA, wbB] (0, 1)) 1).acceleration
            - (nth ([wbA, wbB] : List Body) 1).acceleration)) :=
  ⟨by decide, claim_C4 [wbA, wbB] 0 1 (by decide) (by decide)⟩

/-- Claim C5: total linear momentum is conserved by integration — for every
System with nonzero total mass, after the initial `computeAccelerations` and
Barycenter correction of the driver, any number of `velocityVerlet` steps
leaves the total momentum exactly zero in exact arithmetic (each step adds
`0.5*dt` times the mass-weighted acceleration sum, which
`computeAccelerations` always makes vanish). -/
theorem claim_C5 (bs : List Body) (h : totalMass bs ≠ 0) (n : ℕ) :
    totalMomentum (velocityVerlet^[n] (enforceBarycenter (computeAccelerations bs))) = 0 :=
  pipeline_momentum bs h n

/-- Claim C5 witness: zero momentum after three integration steps on the
concrete System `[wbA, wbB]`. -/
theorem claim_C5_witness :
    totalMass [wbA, wbB] ≠ 0 ∧
    totalMomentum (velocityVerlet^[3] (enforceBarycenter (computeAccelerations [wbA, wbB]))) = 0 := by
  have h : totalMass [wbA, wbB] ≠ 0 := by
    norm_num [totalMass, wbA, wbB]
  exact ⟨h, claim_C5 [wbA, wbB] h 3⟩

/-- Claim C6: for every System with positive total mass, `enforceBarycenter`
subtracts `totalMomentum / totalMass` from every body's velocity, and the
resulting System has exactly zero net linear momentum. -/
theorem claim_C6 (bs : List Body) (h : 0 < totalMass bs) :
    (∀ k, k < bs.length →
      (nth (enforceBarycenter bs) k).velocity
        = (nth bs k).velocity - (totalMomentum bs).div (totalMass bs)) ∧
    totalMomentum (enforceBarycenter bs) = 0 := by
  constructor
  · intro k hk
    unfold enforceBarycenter
    rw [nth_map _ _ _ hk]
  · exact totalMomentum_enforceBarycenter bs (ne_of_gt h)

/-- Claim C6 witness: the corrected System `[wbA, wbB]` has zero momentum and
the stated per-body velocity update at index 0. -/
theorem claim_C6_witness :
    0 < totalMass [wbA, wbB] ∧
    (nth (enforceBarycenter [wbA, wbB]) 0).velocity
      = (nth ([wbA, wbB] : List Body) 0).velocity
        - (totalMomentum [wbA, wbB]).div (totalMass [wbA, wbB]) ∧
    totalMomentum (enforceBarycenter [wbA, wbB]) = 0 := by
  have h : 0 < totalMass [wbA, wbB] := by
    norm_num [totalMass, wbA, wbB]
  have h2 := claim_C6 [wbA, wbB] h
  exact ⟨h, h2.1 0 (by decide), h2.2⟩

/-- Claim C7: `enforceBarycenter` is idempotent on every System with positive
total mass — applying it twice yields exactly the same bodies as applying it
once, because the second application computes a zero correction. -/
theorem claim_C7 (bs : List Body) (h : 0 < totalMass bs) :
    enforceBarycenter (enforceBarycenter bs) = enforceBarycenter bs :=
  enforceBarycenter_of_zero_momentum _ (totalMomentum_enforceBarycenter bs (ne_of_gt h))

/-- Claim C7 witness: idempotence at the concrete System `[wbA, wbB]`. -/
theorem claim_C7_witness :
    0 < totalMass [wbA, wbB] ∧
    enforceBarycenter (enforceBarycenter [wbA, wbB]) = enforceBarycenter [wbA, wbB] := by
  have h : 0 < totalMass [wbA, wbB] := by
    norm_num [totalMass, wbA, wbB]
  exact ⟨h, claim_C7 [wbA, wbB] h⟩

/-- Claim C8: every external tick performs exactly `S = 5` velocity-Verlet
sub-steps: the driver's sub-step count is the constant 5 and the tick is the
five-fold composition of `velocityVerlet` — the driver takes no notion of
measured frame time at all. -/
theorem claim_C8 :
    SUBSTEPS = 5 ∧
    ∀ bs : List Body,
      tickPhysics bs
        = velocityVerlet (velocityVerlet (velocityVerlet (velocityVerlet (velocityVerlet bs)))) :=
  ⟨rfl, fun _ => rfl⟩

/-- Claim C9: the integrator's old-acceleration buffer has no observable
effect across calls: the body-list result of a (stateful) `velocityVerlet`
call is the pure function of the body list alone, for every incoming buffer
state, and therefore interleaving the steps of two independent Systems of
any sizes through the one shared static buffer produces exactly the
trajectories of stepping each System alone. -/
theorem claim_C9 :
    (∀ (buf : List Vec3) (bs : List Body), (velocityVerletSt buf bs).2 = velocityVerlet bs) ∧
    ∀ (n : ℕ) (buf : List Vec3) (a b : List Body),
      interleaveSteps n buf a b = (velocityVerlet^[n] a, velocityVerlet^[n] b) :=
  ⟨fun buf bs => by rw [velocityVerletSt_spec], interleaveSteps_pure⟩

/-- Claim C10: `enforceBarycenter` modifies only velocities — the body count
and, at every index, the mass, position and acceleration are exactly the
same after the call as before it. -/
theorem claim_C10 (bs : List Body) :
    (enforceBarycenter bs).length = bs.length ∧
    ∀ k : ℕ,
      (nth (enforceBarycenter bs) k).mass = (nth bs k).mass ∧
      (nth (enforceBarycenter bs) k).position = (nth bs k).position ∧
      (nth (enforceBarycenter bs) k).acceleration = (nth bs k).acceleration := by
  refine ⟨length_enforceBarycenter bs, fun k => ?_⟩
  by_cases hk : k < bs.length
  · unfold enforceBarycenter
    rw [nth_map _ _ _ hk]
    exact ⟨rfl, rfl, rfl⟩
  · rw [nth_of_length_le _ _ (by rw [length_enforceBarycenter]; omega),
      nth_of_length_le _ _ (by omega)]
    exact ⟨rfl, rfl, rfl⟩

end NBody
